import Mathlib

/-
Verification development for the ai-code-review-tool repository
(src/app.py and src/mcp_server.py).

The embedding below translates the ingestion-and-aggregation pipeline of
src/app.py into Lean. A filesystem directory tree is modelled by the
mutual inductive Entry / EntryList; walking a tree with os.walk is
modelled by structural recursion that visits every directory top-down,
exactly as os.walk does, threading the full path string of the current
walk root because the Python code tests that string for ignore tokens.
The external reviewer capability (the Hugging Face chat completion call)
is an opaque collaborator and is modelled as a function of type Reviewer
that either returns response text or fails; the try/except wrapper of
analyze_code_with_ai is modelled by matching on that result. A Python
dict is modelled as an association list with insert-or-update semantics,
which preserves insertion order and overwrites values in place, exactly
like the dict used for the reviews mapping.
-/

/-- Python str containment helper: listPrefixOf pat l is true when pat is a
prefix of l, comparing characters. -/
def listPrefixOf : List Char → List Char → Bool
  | [], _ => true
  | _ :: _, [] => false
  | c :: cs, d :: ds => c = d && listPrefixOf cs ds

/-- Python substring test: listInfixOf pat l is true when pat occurs
contiguously somewhere inside l. -/
def listInfixOf : List Char → List Char → Bool
  | pat, [] => pat.isEmpty
  | pat, c :: cs => listPrefixOf pat (c :: cs) || listInfixOf pat cs

/-- Model of the Python expression tok in hay for strings: substring test. -/
def strContains (hay tok : String) : Bool := listInfixOf tok.toList hay.toList

/-- Model of Python str.endswith: post is a suffix of s. -/
def endsWithStr (s post : String) : Bool :=
  listPrefixOf post.toList.reverse s.toList.reverse

/-- The ignore_folders constant of src/app.py line 36. -/
def ignore_folders : List String :=
  [".venv", "wwwroot", "node_modules", "__pycache__", "bin", "obj", "properties"]

/-- The ALLOWED_EXTS constant of src/app.py line 37. -/
def ALLOWED_EXTS : List String :=
  [".py", ".js", ".java", ".cs", ".cpp", ".ts", ".cshtml", ".razor"]

/-- Model of the Python expression
any(ignored in root for ignored in ignore_folders). -/
def containsIgnored (root : String) : Bool :=
  ignore_folders.any (fun tok => strContains root tok)

/-- Model of the Python expression
any(file.endswith(ext) for ext in ALLOWED_EXTS). -/
def allowedFile (name : String) : Bool :=
  ALLOWED_EXTS.any (fun ext => endsWithStr name ext)

/-- Model of os.path.basename: the final path segment after the last slash. -/
def basename (p : String) : String :=
  String.mk (p.toList.foldl (fun acc c => if c = '/' then [] else acc ++ [c]) [])

/-- Relative-path join as produced by os.path.relpath on walk roots: joining
a relative root with a child directory name. An empty relative root denotes
the workspace root itself. -/
def relJoin (rel d : String) : String := if rel = "" then d else rel ++ "/" ++ d

/-- Full-path join of a base directory with a relative path, as produced by
os.path.join on Linux. -/
def joinBase (base rel : String) : String :=
  if rel = "" then base else base ++ "/" ++ rel

/-- Splitting a relative path into its slash-separated segments. -/
def splitPathAux : List Char → List Char → List String
  | [], cur => [String.mk cur.reverse]
  | c :: cs, cur =>
    if c = '/' then String.mk cur.reverse :: splitPathAux cs []
    else splitPathAux cs (c :: cur)

/-- Model of splitting a path string on the slash separator. -/
def splitPath (s : String) : List String := splitPathAux s.toList []

mutual
/-- A filesystem entry: a file with name and text content (content as read
with encoding utf-8 and errors ignore, hence always text), or a directory
with name and children. -/
inductive Entry where
  | file : String → String → Entry
  | dir : String → EntryList → Entry
/-- A list of sibling filesystem entries, in directory-listing order. -/
inductive EntryList where
  | nil : EntryList
  | cons : Entry → EntryList → EntryList
end

/-- The files directly contained in a directory, with their contents, in
listing order: the files component of one os.walk triple. -/
def filesHere : EntryList → List (String × String)
  | .nil => []
  | .cons (Entry.file n c) es => (n, c) :: filesHere es
  | .cons (Entry.dir _ _) es => filesHere es

/-- The names of the directories directly contained in a directory, each
joined onto the relative path rel of that directory: the loop body
folders.append(os.path.relpath(os.path.join(root, d), folder_path)) of
list_subfolders, for one walk root. -/
def emitNames (rel : String) : EntryList → List String
  | .nil => []
  | .cons (Entry.file _ _) es => emitNames rel es
  | .cons (Entry.dir n _) es => relJoin rel n :: emitNames rel es

mutual
/-- Walk step of list_subfolders for a single entry below the workspace:
files contribute nothing; for a directory d visited at relative path rel,
os.walk yields the triple whose root is the full path of d, so the child
directory names of d are appended unless that root contains an ignore
token, and then the walk descends into d. -/
def walkEntry (base : String) (rel : String) : Entry → List String
  | Entry.file _ _ => []
  | Entry.dir n cs =>
      (if containsIgnored (joinBase base (relJoin rel n)) then []
       else emitNames (relJoin rel n) cs)
      ++ walkList base (relJoin rel n) cs
/-- Walk of list_subfolders over a sibling list, in listing order. -/
def walkList (base : String) (rel : String) : EntryList → List String
  | .nil => []
  | .cons e es => walkEntry base rel e ++ walkList base rel es
end

/-- Model of list_subfolders of src/app.py lines 59-67: the basename of the
workspace path first, then for every os.walk root whose full path contains
no ignore token, the relative paths of its child directories, top-down.
The first walk root is the workspace path itself. -/
def list_subfolders (folder_path : String) (ws : EntryList) : List String :=
  basename folder_path ::
    ((if containsIgnored folder_path then [] else emitNames "" ws)
      ++ walkList folder_path "" ws)

mutual
/-- File-discovery step of process_selected_folders for a single entry: for
a directory d visited at relative path rel, os.walk yields the triple whose
root is the full path of d; unless that root contains an ignore token, the
files of d whose names end with an allowed extension are collected (with
their contents), and then the walk descends into d. -/
def discoverEntry (base : String) (rel : String) : Entry → List (String × String)
  | Entry.file _ _ => []
  | Entry.dir n cs =>
      (if containsIgnored (joinBase base (relJoin rel n)) then []
       else (filesHere cs).filter (fun f => allowedFile f.1))
      ++ discoverList base (relJoin rel n) cs
/-- File discovery over a sibling list, in listing order. -/
def discoverList (base : String) (rel : String) : EntryList → List (String × String)
  | .nil => []
  | .cons e es => discoverEntry base rel e ++ discoverList base rel es
end

/-- The full sequence of reviewable files yielded by the os.walk loop of
process_selected_folders starting at full_path containing the entries cs:
the first walk root is full_path itself, then its subdirectories top-down. -/
def osWalkFiles (full_path : String) (cs : EntryList) : List (String × String) :=
  (if containsIgnored full_path then []
   else (filesHere cs).filter (fun f => allowedFile f.1))
  ++ discoverList full_path "" cs

/-- Locate a child directory by name among siblings, as the filesystem does
when resolving one path segment. -/
def findDir : EntryList → String → Option EntryList
  | .nil, _ => none
  | .cons (Entry.file _ _) es, d => findDir es d
  | .cons (Entry.dir n cs) es, d => if n = d then some cs else findDir es d

/-- Resolve a relative path, segment by segment, below a directory. A path
that does not resolve to a directory makes os.walk yield nothing. -/
def lookupDir : EntryList → List String → Option EntryList
  | cs, [] => some cs
  | cs, seg :: rest =>
    match findDir cs seg with
    | some cs2 => lookupDir cs2 rest
    | none => none

/-- The external reviewer capability: given the code text and the filename
embedded in the user message, it either returns the completion text or
fails with an exception message. The chat client of src/app.py is this
opaque collaborator. -/
abbrev Reviewer : Type := String → String → Except String String

/-- Model of analyze_code_with_ai of src/app.py lines 40-51: invoke the
capability; on success return its text, on any raised failure return the
string built from the exception, so no failure propagates. -/
def analyze_code_with_ai (client : Reviewer) (code_text : String) (filename : String) : String :=
  match client code_text filename with
  | Except.ok content => content
  | Except.error e => "⚠️ Error: " ++ e

/-- Python dict assignment reviews[k] = v on an insertion-ordered mapping:
update the value in place when the key is present, else append the new
pair at the end. -/
def insertAssoc : List (String × String) → String → String → List (String × String)
  | [], k, v => [(k, v)]
  | (k0, v0) :: rest, k, v =>
    if k0 = k then (k0, v) :: rest
    else (k0, v0) :: insertAssoc rest k v

/-- Python dict lookup reviews[k] on the association-list model. -/
def lookupAssoc : List (String × String) → String → Option String
  | [], _ => none
  | (k0, v0) :: rest, k => if k0 = k then some v0 else lookupAssoc rest k

/-- The content of the last file with a given name in a discovery sequence:
the file processed last in traversal order among those sharing the name. -/
def lastFile : List (String × String) → String → Option String
  | [], _ => none
  | (k, c) :: rest, name =>
    match lastFile rest name with
    | some c2 => some c2
    | none => if k = name then some c else none

/-- The files discovered for one selected folder label by
process_selected_folders: when the label equals the basename of the base
path, full_path is the base path itself and the whole workspace is walked;
otherwise the label is joined onto the base path and, when that path
resolves to a directory, that subtree is walked, while an unresolvable
path makes os.walk yield nothing. -/
def discover_one (base_path : String) (ws : EntryList) (subfolder : String) : List (String × String) :=
  if subfolder = basename base_path then osWalkFiles base_path ws
  else
    match lookupDir ws (splitPath subfolder) with
    | some cs => osWalkFiles (base_path ++ "/" ++ subfolder) cs
    | none => []

/-- All files discovered by process_selected_folders, in traversal order:
the selected folder labels in order, each contributing its walk. -/
def discoverAll (base_path : String) (ws : EntryList) : List String → List (String × String)
  | [] => []
  | subfolder :: rest =>
    discover_one base_path ws subfolder ++ discoverAll base_path ws rest

/-- One iteration of the inner loop of process_selected_folders: the dict
assignment reviews[file] = analyze_code_with_ai(code, file). -/
def reviewStep (client : Reviewer) (acc : List (String × String)) (f : String × String) : List (String × String) :=
  insertAssoc acc f.1 (analyze_code_with_ai client f.2 f.1)

/-- Model of process_selected_folders of src/app.py lines 69-82: starting
from an empty dict, iterate over the selected folder labels, and for every
reviewable file yielded by the walk of each label, in walk order, assign
its review into the dict keyed by the base filename. -/
def process_selected_folders (client : Reviewer) (base_path : String) (ws : EntryList) (selected_folders : List String) : List (String × String) :=
  selected_folders.foldl
    (fun reviews subfolder =>
      (discover_one base_path ws subfolder).foldl (reviewStep client) reviews)
    []

/-- Instrumented review step that additionally logs the filename of every
dispatcher invocation, in call order. -/
def tracedStep (client : Reviewer) (st : List (String × String) × List String) (f : String × String) : List (String × String) × List String :=
  (insertAssoc st.1 f.1 (analyze_code_with_ai client f.2 f.1), st.2 ++ [f.1])

/-- process_selected_folders instrumented with the sequence of dispatcher
calls it performs, used to count invocations of analyze_code_with_ai. -/
def process_selected_folders_traced (client : Reviewer) (base_path : String) (ws : EntryList) (selected_folders : List String) : List (String × String) × List String :=
  selected_folders.foldl
    (fun st subfolder =>
      (discover_one base_path ws subfolder).foldl (tracedStep client) st)
    ([], [])

/-- Model of process_file of src/app.py lines 84-88: read the file at the
given path (its text content is the content argument) and return the
one-entry dict keyed by the base filename; no extension check appears. -/
def process_file (client : Reviewer) (file_path : String) (content : String) : List (String × String) :=
  [(basename file_path, analyze_code_with_ai client content (basename file_path))]

/-- A block of the generated document: a heading with its level, or a body
paragraph. -/
inductive DocItem where
  | heading : Nat → String → DocItem
  | para : String → DocItem
deriving DecidableEq

/-- The loop body of generate_report: for every batch entry in mapping
order, a level-1 heading carrying the filename followed by a paragraph
carrying the review text. -/
def reportBody : List (String × String) → List DocItem
  | [] => []
  | (fname, review) :: rest =>
    DocItem.heading 1 fname :: DocItem.para review :: reportBody rest

/-- Model of generate_report of src/app.py lines 90-97: a document starting
with the top-level title, then one heading-plus-paragraph section per batch
entry in mapping order; the document is saved at output_path, which is
returned. -/
def generate_report (reviews : List (String × String)) (output_path : String) : List DocItem × String :=
  (DocItem.heading 0 "Code Review Report" :: reportBody reviews, output_path)

/-- The default output path of generate_report. -/
def default_report_path : String := "review_report.docx"

/-- The heading-plus-body sections of a generated document: every level-1
heading immediately followed by a paragraph, in document order. -/
def sectionsOf : List DocItem → List (String × String)
  | DocItem.heading 1 t :: DocItem.para b :: rest => (t, b) :: sectionsOf rest
  | _ :: rest => sectionsOf rest
  | [] => []

/-- An uploaded archive, modelled by the directory tree its entries form
when expanded; none stands for input that is not a well-formed archive, on
which opening the archive raises. -/
def Archive : Type := Option EntryList

/-- Model of extract_zip_to_temp of src/app.py lines 53-57. The first
component records the ephemeral directories created by tempfile.mkdtemp,
which runs before the archive is opened, so the fresh directory is created
whether or not the input is well formed. The second component is the
outcome: for a well-formed archive, the temp directory path together with
the expanded tree; for malformed input, the error raised by zipfile. -/
def extract_zip_to_temp (temp_dir : String) (archive : Archive) : List String × Except String (String × EntryList) :=
  match archive with
  | none => ([temp_dir], Except.error "BadZipFile")
  | some tree => ([temp_dir], Except.ok (temp_dir, tree))

/-- Result of load_subfolders_from_zip on its non-raising paths: either the
no-upload message alone, or the folder choices, the workspace path and the
found-count message. -/
inductive LoadResult where
  | noZip : String → LoadResult
  | loaded : List String → String → String → LoadResult
deriving DecidableEq

/-- Model of load_subfolders_from_zip of src/app.py lines 103-108: with no
upload, return the warning; otherwise extract the archive (an exception
raised there propagates, as the function has no handler) and list the
subfolders of the produced workspace. The first component records the
ephemeral directories created during the call. -/
def load_subfolders_from_zip (temp_dir : String) (zip_file : Option Archive) : List String × Except String LoadResult :=
  match zip_file with
  | none => ([], Except.ok (LoadResult.noZip "⚠️ No ZIP uploaded."))
  | some archive =>
    match extract_zip_to_temp temp_dir archive with
    | (created, Except.error e) => (created, Except.error e)
    | (created, Except.ok (folder_path, ws)) =>
      let folders := list_subfolders folder_path ws
      (created,
       Except.ok (LoadResult.loaded folders folder_path
         ("✅ Found " ++ toString folders.length ++ " folders.")))

/-- Model of the review_file tool of src/mcp_server.py lines 13-28: decline
when the path does not exist, else review the single file and return the
concatenated output text with the download link. -/
def review_file (client : Reviewer) (public_url : String) (file_exists : Bool) (file_path : String) (content : String) : String :=
  if file_exists = false then "⚠️ File not found."
  else
    let reviews := process_file client file_path content
    let report_filename := basename file_path ++ "_review.docx"
    let output_text :=
      String.intercalate "\n\n" (reviews.map (fun p => p.1 ++ ":\n" ++ p.2))
    output_text ++ "\n\n✅ Download report: "
      ++ (public_url ++ "/files/" ++ report_filename)

/-- Model of the review_zip tool of src/mcp_server.py lines 31-45: decline
when the zip path does not exist; extract (exceptions propagate); when the
folders argument is None or an empty list, default it to the single label
given by the basename of the extracted workspace path; process the
selection; report no code files on an empty batch; otherwise generate the
report and return the output text with the download link. The first
component records the ephemeral directories created during the call. -/
def review_zip (client : Reviewer) (public_url : String) (temp_dir : String) (zip_path : String) (zip_exists : Bool) (archive : Archive) (folders : Option (List String)) : List String × Except String String :=
  if zip_exists = false then ([], Except.ok "⚠️ ZIP file not found.")
  else
    match extract_zip_to_temp temp_dir archive with
    | (created, Except.error e) => (created, Except.error e)
    | (created, Except.ok (base_path, ws)) =>
      let folders2 :=
        match folders with
        | none => [basename base_path]
        | some fs => if fs.isEmpty then [basename base_path] else fs
      let reviews := process_selected_folders client base_path ws folders2
      if reviews.isEmpty then (created, Except.ok "⚠️ No code files found.")
      else
        let report_filename := basename zip_path ++ "_review.docx"
        let report_path := "reports" ++ "/" ++ report_filename
        let _report := generate_report reviews report_path
        let output_text :=
          String.intercalate "\n\n" (reviews.map (fun p => p.1 ++ ":\n" ++ p.2))
        (created,
         Except.ok (output_text ++ "\n\n✅ Download report: "
           ++ (public_url ++ "/files/" ++ report_filename)))

/-- Modelled from the spec: the phrase the archive s own top-level name of
testable property 1 denotes the name of the single top-level entry the
archive contains; archives with zero or several top-level entries have no
such name. This definition follows the words of the spec, for comparison
with the behaviour of the code, because the spec names a quantity the code
never computes. -/
def archiveTopLevelName : EntryList → Option String
  | EntryList.cons (Entry.dir n _) EntryList.nil => some n
  | EntryList.cons (Entry.file n _) EntryList.nil => some n
  | _ => none

/-- A well-formed filesystem name: real directory entries never contain
the path separator, so a name is well formed when no slash occurs in it. -/
def nameOk (n : String) : Bool := decide ('/' ∉ n.toList)

mutual
/-- Well-formedness of a filesystem entry: its own name contains no path
separator, and so do all names below it. -/
def validEntry : Entry → Bool
  | Entry.file n _ => nameOk n
  | Entry.dir n cs => nameOk n && validList cs
/-- Well-formedness of a sibling list. -/
def validList : EntryList → Bool
  | EntryList.nil => true
  | EntryList.cons e es => validEntry e && validList es
end

/-- Concrete workspace used to instantiate the partial-failure property:
three reviewable files at the workspace root. -/
def wsABC : EntryList :=
  EntryList.cons (Entry.file "a.py" "A")
    (EntryList.cons (Entry.file "b.py" "B")
      (EntryList.cons (Entry.file "c.py" "C") EntryList.nil))

/-- Concrete reviewer that fails on the content of the first file of wsABC
and succeeds elsewhere. -/
def clientABC : Reviewer :=
  fun code _ => if code = "A" then Except.error "boom" else Except.ok ("ok " ++ code)

/-- Concrete workspace with a clean directory src holding a subdirectory a,
used to instantiate the enumeration invariant at the nested path src/a. -/
def wsSrcA : EntryList :=
  EntryList.cons
    (Entry.dir "src" (EntryList.cons (Entry.dir "a" EntryList.nil) EntryList.nil))
    EntryList.nil

/-- Concrete workspace with one reviewable file, used to instantiate the
extension-filter property. -/
def wsPy : EntryList :=
  EntryList.cons (Entry.file "a.py" "print(1)") EntryList.nil

/-- Concrete reviewer that always succeeds with a fixed text. -/
def clientOk : Reviewer := fun _ _ => Except.ok "fine"

/-- Concrete archive content with a single top-level folder, used to
instantiate the extraction properties. -/
def wsMyproj : EntryList :=
  EntryList.cons (Entry.dir "myproj" EntryList.nil) EntryList.nil

/-- Concrete workspace used to instantiate the folder-defaulting behaviour
of the review_zip tool. -/
def wsT : EntryList :=
  EntryList.cons (Entry.file "m.cs" "class M") EntryList.nil

/-- Concrete reviewer used to instantiate the folder-defaulting behaviour
of the review_zip tool. -/
def clientR : Reviewer := fun _ name => Except.ok ("review of " ++ name)

/-- Lookup after a dict assignment: the assigned key now maps to the new
value and every other key is unchanged. -/
theorem lookupAssoc_insertAssoc : ∀ (l : List (String × String)) (k v k2 : String),
    lookupAssoc (insertAssoc l k v) k2 = if k = k2 then some v else lookupAssoc l k2
  | [], k, v, k2 => by simp [insertAssoc, lookupAssoc]
  | (k0, v0) :: tl, k, v, k2 => by
    by_cases h0 : k0 = k
    · subst h0
      by_cases h2 : k0 = k2 <;> simp [insertAssoc, lookupAssoc, h2]
    · by_cases h2 : k0 = k2
      · subst h2
        have hk : ¬ k = k0 := fun h => h0 h.symm
        simp [insertAssoc, lookupAssoc, h0, hk]
      · simp [insertAssoc, lookupAssoc, h0, h2, lookupAssoc_insertAssoc tl k v k2]

/-- Key sequence after a dict assignment: unchanged when the key is already
present, else extended by the new key at the end. -/
theorem map_fst_insertAssoc : ∀ (l : List (String × String)) (k v : String),
    (insertAssoc l k v).map Prod.fst
      = if k ∈ l.map Prod.fst then l.map Prod.fst else l.map Prod.fst ++ [k]
  | [], k, v => by simp [insertAssoc]
  | (k0, v0) :: tl, k, v => by
    by_cases h0 : k0 = k
    · subst h0
      simp [insertAssoc]
    · have h0s : ¬ k = k0 := fun h => h0 h.symm
      rw [insertAssoc, if_neg h0]
      by_cases hm : k ∈ tl.map Prod.fst <;>
        simp [map_fst_insertAssoc tl k v, hm, h0s]

/-- Membership in the key sequence after a dict assignment. -/
theorem mem_map_fst_insertAssoc (l : List (String × String)) (k v x : String) :
    x ∈ (insertAssoc l k v).map Prod.fst ↔ x ∈ l.map Prod.fst ∨ x = k := by
  rw [map_fst_insertAssoc]
  by_cases hm : k ∈ l.map Prod.fst
  · simp only [if_pos hm]
    constructor
    · exact fun h => Or.inl h
    · rintro (h | rfl)
      · exact h
      · exact hm
  · simp [if_neg hm]

/-- A dict assignment keeps the key sequence free of duplicates. -/
theorem nodup_map_fst_insertAssoc (l : List (String × String)) (k v : String)
    (h : (l.map Prod.fst).Nodup) : ((insertAssoc l k v).map Prod.fst).Nodup := by
  rw [map_fst_insertAssoc]
  by_cases hm : k ∈ l.map Prod.fst
  · simpa [if_pos hm] using h
  · rw [if_neg hm]
    simpa [List.nodup_append, hm] using h

/-- Folding the review loop over a file sequence: the final value at any
key is the review of the last discovered file bearing that key, and keys
never discovered keep their value from the starting dict. -/
theorem lookupAssoc_foldl_reviewStep (client : Reviewer) : ∀ (fs : List (String × String)) (acc : List (String × String)) (name : String),
    lookupAssoc (fs.foldl (reviewStep client) acc) name
      = (lastFile fs name).elim (lookupAssoc acc name)
          (fun code => some (analyze_code_with_ai client code name))
  | [], acc, name => by simp [lastFile]
  | f :: rest, acc, name => by
    rw [List.foldl_cons, lookupAssoc_foldl_reviewStep client rest (reviewStep client acc f) name]
    cases hl : lastFile rest name with
    | some c2 => simp [lastFile, hl]
    | none =>
      by_cases hf : f.1 = name
      · simp [lastFile, hl, hf, reviewStep, lookupAssoc_insertAssoc]
      · simp [lastFile, hl, hf, reviewStep, lookupAssoc_insertAssoc]

/-- Membership in the key sequence after folding the review loop. -/
theorem mem_map_fst_foldl_reviewStep (client : Reviewer) : ∀ (fs acc : List (String × String)) (x : String),
    x ∈ (fs.foldl (reviewStep client) acc).map Prod.fst
      ↔ x ∈ acc.map Prod.fst ∨ x ∈ fs.map Prod.fst
  | [], acc, x => by simp
  | f :: rest, acc, x => by
    rw [List.foldl_cons,
      mem_map_fst_foldl_reviewStep client rest (reviewStep client acc f) x]
    rw [reviewStep, mem_map_fst_insertAssoc]
    simp only [List.map_cons, List.mem_cons]
    tauto

/-- Folding the review loop keeps the key sequence free of duplicates. -/
theorem nodup_map_fst_foldl_reviewStep (client : Reviewer) : ∀ (fs acc : List (String × String)),
    (acc.map Prod.fst).Nodup → ((fs.foldl (reviewStep client) acc).map Prod.fst).Nodup
  | [], acc, h => h
  | f :: rest, acc, h => by
    rw [List.foldl_cons]
    exact nodup_map_fst_foldl_reviewStep client rest _ (nodup_map_fst_insertAssoc _ _ _ h)

/-- The outer loop of process_selected_folders equals one fold of the
review loop over the concatenated discovery sequence of all selected
folders. -/
theorem foldl_selected_eq_foldl_discoverAll (client : Reviewer) (base_path : String) (ws : EntryList) : ∀ (sel : List String) (init : List (String × String)),
    sel.foldl
        (fun reviews subfolder =>
          (discover_one base_path ws subfolder).foldl (reviewStep client) reviews)
        init
      = (discoverAll base_path ws sel).foldl (reviewStep client) init
  | [], init => rfl
  | s :: sel, init => by
    rw [List.foldl_cons, foldl_selected_eq_foldl_discoverAll client base_path ws sel _]
    rw [discoverAll, List.foldl_append]

/-- process_selected_folders is the fold of the per-file review step over
the discovery sequence, in traversal order. -/
theorem process_selected_folders_eq_foldl (client : Reviewer) (base_path : String) (ws : EntryList) (selected : List String) :
    process_selected_folders client base_path ws selected
      = (discoverAll base_path ws selected).foldl (reviewStep client) [] :=
  foldl_selected_eq_foldl_discoverAll client base_path ws selected []

/-- The instrumented review loop: same dict as the plain loop, and the call
log extends by exactly the filenames of the folded file sequence. -/
theorem foldl_tracedStep (client : Reviewer) : ∀ (fs : List (String × String)) (st : List (String × String) × List String),
    fs.foldl (tracedStep client) st
      = (fs.foldl (reviewStep client) st.1, st.2 ++ fs.map Prod.fst)
  | [], st => by simp
  | f :: rest, st => by
    rw [List.foldl_cons, foldl_tracedStep client rest _]
    simp [tracedStep, reviewStep]

/-- The instrumented pipeline returns the plain pipeline result together
with one dispatcher call per discovered file, in traversal order. -/
theorem process_selected_folders_traced_eq (client : Reviewer) (base_path : String) (ws : EntryList) (selected : List String) :
    process_selected_folders_traced client base_path ws selected
      = (process_selected_folders client base_path ws selected,
         (discoverAll base_path ws selected).map Prod.fst) := by
  have main : ∀ (sel : List String) (st : List (String × String) × List String),
      sel.foldl
          (fun st subfolder =>
            (discover_one base_path ws subfolder).foldl (tracedStep client) st)
          st
        = (sel.foldl
            (fun reviews subfolder =>
              (discover_one base_path ws subfolder).foldl (reviewStep client) reviews)
            st.1,
           st.2 ++ (discoverAll base_path ws sel).map Prod.fst) := by
    intro sel
    induction sel with
    | nil => intro st; simp [discoverAll]
    | cons s sel ih =>
      intro st
      rw [List.foldl_cons, ih _, foldl_tracedStep client _ st]
      simp [discoverAll, List.append_assoc]
  rw [process_selected_folders_traced, main selected ([], []),
    process_selected_folders]
  simp

mutual
/-- Every file collected by the discovery walk below one entry passed the
allowed-extension filter. -/
theorem allowed_of_mem_discoverEntry : ∀ (base rel : String) (e : Entry) (f : String × String),
    f ∈ discoverEntry base rel e → allowedFile f.1 = true
  | base, rel, Entry.file n c, f => by simp [discoverEntry]
  | base, rel, Entry.dir n cs, f => by
    intro h
    rw [discoverEntry] at h
    rcases List.mem_append.mp h with h | h
    · by_cases hig : containsIgnored (joinBase base (relJoin rel n)) = true
      · simp [hig] at h
      · rw [if_neg hig] at h
        exact (List.mem_filter.mp h).2
    · exact allowed_of_mem_discoverList base (relJoin rel n) cs f h
/-- Every file collected by the discovery walk over a sibling list passed
the allowed-extension filter. -/
theorem allowed_of_mem_discoverList : ∀ (base rel : String) (cs : EntryList) (f : String × String),
    f ∈ discoverList base rel cs → allowedFile f.1 = true
  | base, rel, .nil, f => by simp [discoverList]
  | base, rel, .cons e es, f => by
    intro h
    rw [discoverList] at h
    rcases List.mem_append.mp h with h | h
    · exact allowed_of_mem_discoverEntry base rel e f h
    · exact allowed_of_mem_discoverList base rel es f h
end

/-- Every file yielded by one os.walk loop passed the allowed-extension
filter. -/
theorem allowed_of_mem_osWalkFiles (full_path : String) (cs : EntryList) (f : String × String)
    (h : f ∈ osWalkFiles full_path cs) : allowedFile f.1 = true := by
  rw [osWalkFiles] at h
  rcases List.mem_append.mp h with h | h
  · by_cases hig : containsIgnored full_path = true
    · simp [hig] at h
    · rw [if_neg hig] at h
      exact (List.mem_filter.mp h).2
  · exact allowed_of_mem_discoverList full_path "" cs f h

/-- Every file discovered for one selected folder label passed the
allowed-extension filter. -/
theorem allowed_of_mem_discover_one (base_path : String) (ws : EntryList) (subfolder : String) (f : String × String)
    (h : f ∈ discover_one base_path ws subfolder) : allowedFile f.1 = true := by
  rw [discover_one] at h
  by_cases hs : subfolder = basename base_path
  · rw [if_pos hs] at h
    exact allowed_of_mem_osWalkFiles base_path ws f h
  · rw [if_neg hs] at h
    cases hl : lookupDir ws (splitPath subfolder) with
    | some cs =>
      rw [hl] at h
      exact allowed_of_mem_osWalkFiles _ cs f h
    | none => rw [hl] at h; simp at h

/-- Every file in the full discovery sequence passed the allowed-extension
filter. -/
theorem allowed_of_mem_discoverAll (base_path : String) (ws : EntryList) : ∀ (selected : List String) (f : String × String),
    f ∈ discoverAll base_path ws selected → allowedFile f.1 = true
  | [], f => by simp [discoverAll]
  | s :: sel, f => by
    intro h
    rw [discoverAll] at h
    rcases List.mem_append.mp h with h | h
    · exact allowed_of_mem_discover_one base_path ws s f h
    · exact allowed_of_mem_discoverAll base_path ws sel f h

/-- Splitting a character list at a separator occurring in neither prefix
determines both parts. -/
theorem split_sep_unique : ∀ (xs ys xs2 ys2 : List Char),
    '/' ∉ xs → '/' ∉ xs2 → xs ++ '/' :: ys = xs2 ++ '/' :: ys2 →
    xs = xs2 ∧ ys = ys2
  | [], ys, [], ys2, _, _, h => ⟨rfl, (List.cons.inj h).2⟩
  | [], ys, x2 :: xs2, ys2, hx, hx2, h => by
    obtain ⟨h1, _⟩ := List.cons.inj h
    exact absurd (by rw [h1]; exact List.mem_cons_self _ _) hx2
  | x :: xs, ys, [], ys2, hx, hx2, h => by
    obtain ⟨h1, _⟩ := List.cons.inj h
    exact absurd (by rw [← h1]; exact List.mem_cons_self _ _) hx
  | x :: xs, ys, x2 :: xs2, ys2, hx, hx2, h => by
    obtain ⟨h1, h2⟩ := List.cons.inj h
    obtain ⟨ha, hb⟩ := split_sep_unique xs ys xs2 ys2
      (fun hm => hx (List.mem_cons_of_mem _ hm))
      (fun hm => hx2 (List.mem_cons_of_mem _ hm)) h2
    exact ⟨by rw [h1, ha], hb⟩

/-- The character list of a slash join. -/
theorem toList_slash_append (a b : String) :
    (a ++ "/" ++ b).toList = a.toList ++ '/' :: b.toList := by
  simp [String.toList, String.data_append]

/-- A slash join always contains the separator. -/
theorem sep_mem_slash_append (a b : String) : '/' ∈ (a ++ "/" ++ b).toList := by
  rw [toList_slash_append]
  exact List.mem_append.mpr (Or.inr (List.mem_cons_self _ _))

/-- A relative path with a slash-free final segment decomposes uniquely:
the parent part and the final name are both determined by the whole
path. -/
theorem relJoin_decomp_unique (rel2 d rel3 d3 : String)
    (hd : '/' ∉ d.toList) (hd3 : '/' ∉ d3.toList)
    (h : relJoin rel2 d = relJoin rel3 d3) : rel2 = rel3 ∧ d = d3 := by
  rw [relJoin, relJoin] at h
  by_cases h2 : rel2 = ""
  · by_cases h3 : rel3 = ""
    · rw [if_pos h2, if_pos h3] at h
      rw [h2, h3]
      exact ⟨rfl, h⟩
    · rw [if_pos h2, if_neg h3] at h
      exact absurd (by rw [h]; exact sep_mem_slash_append rel3 d3) hd
  · by_cases h3 : rel3 = ""
    · rw [if_neg h2, if_pos h3] at h
      exact absurd (by rw [← h]; exact sep_mem_slash_append rel2 d) hd3
    · rw [if_neg h2, if_neg h3] at h
      have hdata : rel2.toList ++ '/' :: d.toList
          = rel3.toList ++ '/' :: d3.toList := by
        rw [← toList_slash_append, ← toList_slash_append, h]
      have hrev : d.toList.reverse ++ '/' :: rel2.toList.reverse
          = d3.toList.reverse ++ '/' :: rel3.toList.reverse := by
        have hr := congrArg List.reverse hdata
        simpa [List.reverse_append] using hr
      obtain ⟨ha, hb⟩ := split_sep_unique _ _ _ _
        (fun hm => hd (List.mem_reverse.mp hm))
        (fun hm => hd3 (List.mem_reverse.mp hm)) hrev
      exact ⟨congrArg String.mk (List.reverse_inj.mp hb),
        congrArg String.mk (List.reverse_inj.mp ha)⟩

/-- Every name emitted for one walk root of a well-formed tree is the
relative path of that root joined with a slash-free child directory
name. -/
theorem emitNames_shape : ∀ (rel : String) (cs : EntryList) (r : String),
    validList cs = true → r ∈ emitNames rel cs →
      ∃ d, r = relJoin rel d ∧ '/' ∉ d.toList
  | rel, .nil, r => by simp [emitNames]
  | rel, .cons (Entry.file n c) es, r => by
    intro hv h
    rw [validList, Bool.and_eq_true] at hv
    rw [emitNames] at h
    exact emitNames_shape rel es r hv.2 h
  | rel, .cons (Entry.dir n cs) es, r => by
    intro hv h
    rw [validList, Bool.and_eq_true] at hv
    have hn : nameOk n = true := by
      have hve := hv.1
      rw [validEntry, Bool.and_eq_true] at hve
      exact hve.1
    rw [emitNames] at h
    rcases List.mem_cons.mp h with h | h
    · exact ⟨n, h, of_decide_eq_true hn⟩
    · exact emitNames_shape rel es r hv.2 h

mutual
/-- Every folder path produced by the enumeration walk below one
well-formed entry decomposes as a slash-free directory name joined onto
the relative path of its emitting walk root, and the full traversed path
of that root is free of ignore tokens: the ignore test of list_subfolders
inspects the root, that is the parent of the emitted directory. -/
theorem clean_parent_of_mem_walkEntry : ∀ (base rel : String) (e : Entry) (r : String),
    validEntry e = true → r ∈ walkEntry base rel e →
      ∃ rel2 d, r = relJoin rel2 d ∧ '/' ∉ d.toList
        ∧ containsIgnored (joinBase base rel2) = false
  | base, rel, Entry.file n c, r => by simp [walkEntry]
  | base, rel, Entry.dir n cs, r => by
    intro hv h
    rw [validEntry, Bool.and_eq_true] at hv
    rw [walkEntry] at h
    rcases List.mem_append.mp h with h | h
    · by_cases hig : containsIgnored (joinBase base (relJoin rel n)) = true
      · simp [hig] at h
      · rw [if_neg hig] at h
        obtain ⟨d, hd, hds⟩ := emitNames_shape (relJoin rel n) cs r hv.2 h
        exact ⟨relJoin rel n, d, hd, hds, Bool.of_not_eq_true hig⟩
    · exact clean_parent_of_mem_walkList base (relJoin rel n) cs r hv.2 h
/-- Every folder path produced by the enumeration walk over a well-formed
sibling list decomposes as a slash-free directory name joined onto the
relative path of its emitting walk root, whose full traversed path is
free of ignore tokens. -/
theorem clean_parent_of_mem_walkList : ∀ (base rel : String) (cs : EntryList) (r : String),
    validList cs = true → r ∈ walkList base rel cs →
      ∃ rel2 d, r = relJoin rel2 d ∧ '/' ∉ d.toList
        ∧ containsIgnored (joinBase base rel2) = false
  | base, rel, .nil, r => by simp [walkList]
  | base, rel, .cons e es, r => by
    intro hv h
    rw [validList, Bool.and_eq_true] at hv
    rw [walkList] at h
    rcases List.mem_append.mp h with h | h
    · exact clean_parent_of_mem_walkEntry base rel e r hv.1 h
    · exact clean_parent_of_mem_walkList base rel es r hv.2 h
end

/-- The document section extractor skips the top-level title. -/
theorem sectionsOf_title (t : String) (l : List DocItem) :
    sectionsOf (DocItem.heading 0 t :: l) = sectionsOf l := rfl

/-- The document section extractor reads one heading-plus-paragraph pair. -/
theorem sectionsOf_section (t b : String) (l : List DocItem) :
    sectionsOf (DocItem.heading 1 t :: DocItem.para b :: l)
      = (t, b) :: sectionsOf l := rfl

/-- The sections of the generated report body are exactly the batch
entries, in order. -/
theorem sectionsOf_reportBody : ∀ (reviews : List (String × String)),
    sectionsOf (reportBody reviews) = reviews
  | [] => rfl
  | (fname, review) :: rest => by
    rw [reportBody, sectionsOf_section, sectionsOf_reportBody rest]

/-- Claim C1, counterexample: enumeration can return a folder path that
contains an ignore token as a substring. In a workspace holding a
top-level directory named bin, list_subfolders returns the path bin,
because the ignore test inspects the walk root, here the clean workspace
path, and never the child directory name being appended. -/
theorem c1_counterexample :
    "bin" ∈ list_subfolders "/tmp/w"
        (EntryList.cons (Entry.dir "bin" EntryList.nil) EntryList.nil) ∧
    containsIgnored "bin" = true := by
  exact ⟨by decide, by decide⟩

/-- Claim C1, amended: in a well-formed workspace, where no entry name
contains the path separator, every folder path returned by enumeration
after the always-present root label decomposes as a parent relative path
rel2 joined with a slash-free directory name d, the full traversed path
of that parent, base joined with rel2, contains no ignore token, and
every slash-free decomposition of the returned path names that same
clean parent. The ignore test therefore guards the parent path of each
listed directory: no path whose parent part contains a token is ever
listed, hence nothing is listed beneath a token-containing directory,
while a directory whose own name carries a token is still listed when
its parent path is clean. -/
theorem c1_amended_parent_clean (base : String) (ws : EntryList) (r : String)
    (hws : validList ws = true)
    (h : r ∈ (list_subfolders base ws).tail) :
    ∃ rel2 d, r = relJoin rel2 d ∧ '/' ∉ d.toList
      ∧ containsIgnored (joinBase base rel2) = false
      ∧ ∀ rel3 d3, '/' ∉ d3.toList → r = relJoin rel3 d3 →
          rel3 = rel2 ∧ containsIgnored (joinBase base rel3) = false := by
  have main : ∃ rel2 d, r = relJoin rel2 d ∧ '/' ∉ d.toList
      ∧ containsIgnored (joinBase base rel2) = false := by
    rw [list_subfolders, List.tail_cons] at h
    rcases List.mem_append.mp h with h | h
    · by_cases hig : containsIgnored base = true
      · simp [hig] at h
      · rw [if_neg hig] at h
        obtain ⟨d, hd, hds⟩ := emitNames_shape "" ws r hws h
        refine ⟨"", d, hd, hds, ?_⟩
        simpa [joinBase] using Bool.of_not_eq_true hig
    · exact clean_parent_of_mem_walkList base "" ws r hws h
  obtain ⟨rel2, d, hd, hds, hclean⟩ := main
  refine ⟨rel2, d, hd, hds, hclean, ?_⟩
  intro rel3 d3 hd3 h3
  obtain ⟨he, _⟩ :=
    relJoin_decomp_unique rel3 d3 rel2 d hd3 hds (h3.symm.trans hd)
  exact ⟨he, by rw [he]; exact hclean⟩

/-- Claim C1, amended, witness: instantiation at the nested listed path
src/a of a well-formed workspace; the unique slash-free decomposition
names the parent src, whose full traversed path is clean. -/
theorem c1_amended_parent_clean_witness :
    ∃ rel2 d, "src/a" = relJoin rel2 d ∧ '/' ∉ d.toList
      ∧ containsIgnored (joinBase "/tmp/w" rel2) = false
      ∧ ∀ rel3 d3, '/' ∉ d3.toList → "src/a" = relJoin rel3 d3 →
          rel3 = rel2 ∧ containsIgnored (joinBase "/tmp/w" rel3) = false :=
  c1_amended_parent_clean "/tmp/w" wsSrcA "src/a" (by decide) (by decide)

/-- Claim C6, counterexample: extraction succeeds on a well-formed archive
whose single top-level folder is named myproj, yet the root folder label
of the produced workspace, the first element of the enumeration, is the
basename of the fresh temp directory, which differs from myproj. -/
theorem c6_counterexample :
    (extract_zip_to_temp "/tmp/tmpabc123" (some wsMyproj)).2
      = Except.ok ("/tmp/tmpabc123", wsMyproj) ∧
    (list_subfolders "/tmp/tmpabc123" wsMyproj).head? = some "tmpabc123" ∧
    archiveTopLevelName wsMyproj = some "myproj" ∧
    ("tmpabc123" : String) ≠ "myproj" := by
  refine ⟨rfl, by decide, rfl, by decide⟩

/-- Claim C6, amended: extraction of a well-formed archive yields the fresh
temp directory as workspace, and the first element of the enumeration is
the basename of that temp directory path, independent of the archive
contents. -/
theorem c6_amended_root_label (temp_dir : String) (tree : EntryList) :
    (extract_zip_to_temp temp_dir (some tree)).2 = Except.ok (temp_dir, tree) ∧
    (list_subfolders temp_dir tree).head? = some (basename temp_dir) :=
  ⟨rfl, rfl⟩

/-- Claim C7, counterexample: on input that is not a well-formed archive,
extraction fails, yet an ephemeral workspace directory has already been
created, so state is not unchanged on the error path. -/
theorem c7_counterexample :
    (extract_zip_to_temp "/tmp/tmpbad" none).2 = Except.error "BadZipFile" ∧
    (extract_zip_to_temp "/tmp/tmpbad" none).1 = ["/tmp/tmpbad"] ∧
    (extract_zip_to_temp "/tmp/tmpbad" none).1 ≠ [] :=
  ⟨rfl, rfl, by decide⟩

/-- Claim C7, amended: for malformed input, opening the archive fails and
the error propagates uncaught out of extract_zip_to_temp and out of
load_subfolders_from_zip, which has no handler, and the ephemeral temp
directory has already been created by tempfile.mkdtemp before the failure,
so a directory is produced on the error path. -/
theorem c7_amended_extraction_failure (temp_dir : String) :
    (extract_zip_to_temp temp_dir none).2 = Except.error "BadZipFile" ∧
    (extract_zip_to_temp temp_dir none).1 = [temp_dir] ∧
    (load_subfolders_from_zip temp_dir (some none)).2 = Except.error "BadZipFile" ∧
    (load_subfolders_from_zip temp_dir (some none)).1 = [temp_dir] :=
  ⟨rfl, rfl, rfl, rfl⟩

/-- Claim C8: assembling a report from the same batch twice yields the same
document both times; the document is the fixed title followed by exactly
one heading-plus-body section per batch entry in the batch iteration
order, as witnessed by the section extractor returning the batch itself;
the document is persisted at the requested path. -/
theorem c8_report_deterministic (reviews : List (String × String)) (output_path : String) :
    generate_report reviews output_path = generate_report reviews output_path ∧
    (generate_report reviews output_path).1
      = DocItem.heading 0 "Code Review Report" :: reportBody reviews ∧
    sectionsOf (generate_report reviews output_path).1 = reviews ∧
    (generate_report reviews output_path).2 = output_path := by
  refine ⟨rfl, rfl, ?_, rfl⟩
  show sectionsOf (DocItem.heading 0 "Code Review Report" :: reportBody reviews)
      = reviews
  rw [sectionsOf_title, sectionsOf_reportBody]

/-- Claim C9: single-file mode applies no extension filter: for every file
path and content, whatever the suffix of the name, process_file returns a
batch with exactly one entry, keyed by the base name of the path and
mapped to the dispatcher result for the content. -/
theorem c9_single_file_no_filter (client : Reviewer) (file_path content : String) :
    (process_file client file_path content).map Prod.fst = [basename file_path] ∧
    lookupAssoc (process_file client file_path content) (basename file_path)
      = some (analyze_code_with_ai client content (basename file_path)) ∧
    (process_file client file_path content).length = 1 := by
  refine ⟨rfl, ?_, rfl⟩
  simp [process_file, lookupAssoc]

/-- Claim C3: for every filename, the aggregated batch maps it to the
review of the last discovered file bearing that name in traversal order,
and is absent exactly when no such file was discovered; moreover the batch
keys are free of duplicates, so a filename discovered several times, in
the same or in different selected folders, has exactly one entry, holding
the result of the file processed last. -/
theorem c3_last_write_wins (client : Reviewer) (base_path : String) (ws : EntryList) (selected : List String) (name : String) :
    lookupAssoc (process_selected_folders client base_path ws selected) name
      = (lastFile (discoverAll base_path ws selected) name).map
          (fun code => analyze_code_with_ai client code name) ∧
    ((process_selected_folders client base_path ws selected).map Prod.fst).Nodup := by
  constructor
  · rw [process_selected_folders_eq_foldl, lookupAssoc_foldl_reviewStep]
    cases lastFile (discoverAll base_path ws selected) name with
    | none => simp [lookupAssoc]
    | some code => simp
  · rw [process_selected_folders_eq_foldl]
    exact nodup_map_fst_foldl_reviewStep client _ [] (by simp)

/-- Claim C2: when the reviewer capability fails on the file named nA and
succeeds on the files named nB and nC, the batch still holds the
successful review texts for nB and nC, while the entry for nA holds the
error message derived from the failure; the dispatcher converts the
failure into that message instead of propagating it, so no file aborts
the remainder of the batch. -/
theorem c2_reviewer_failure_isolated (client : Reviewer) (base_path : String) (ws : EntryList) (selected : List String)
    (nA cA eA nB cB tB nC cC tC : String)
    (hA : client cA nA = Except.error eA)
    (hB : client cB nB = Except.ok tB)
    (hC : client cC nC = Except.ok tC)
    (hlA : lastFile (discoverAll base_path ws selected) nA = some cA)
    (hlB : lastFile (discoverAll base_path ws selected) nB = some cB)
    (hlC : lastFile (discoverAll base_path ws selected) nC = some cC) :
    lookupAssoc (process_selected_folders client base_path ws selected) nB = some tB ∧
    lookupAssoc (process_selected_folders client base_path ws selected) nC = some tC ∧
    lookupAssoc (process_selected_folders client base_path ws selected) nA
      = some ("⚠️ Error: " ++ eA) ∧
    analyze_code_with_ai client cA nA = "⚠️ Error: " ++ eA := by
  have key : ∀ n c, lastFile (discoverAll base_path ws selected) n = some c →
      lookupAssoc (process_selected_folders client base_path ws selected) n
        = some (analyze_code_with_ai client c n) := by
    intro n c hc
    rw [process_selected_folders_eq_foldl, lookupAssoc_foldl_reviewStep, hc,
      Option.elim_some]
  refine ⟨?_, ?_, ?_, ?_⟩
  · rw [key nB cB hlB]; simp [analyze_code_with_ai, hB]
  · rw [key nC cC hlC]; simp [analyze_code_with_ai, hC]
  · rw [key nA cA hlA]; simp [analyze_code_with_ai, hA]
  · simp [analyze_code_with_ai, hA]

/-- Claim C2, witness: a workspace with files a.py, b.py and c.py and a
reviewer that fails exactly on the content of a.py. -/
theorem c2_reviewer_failure_isolated_witness :
    lookupAssoc (process_selected_folders clientABC "/w" wsABC ["w"]) "b.py"
      = some "ok B" ∧
    lookupAssoc (process_selected_folders clientABC "/w" wsABC ["w"]) "c.py"
      = some "ok C" ∧
    lookupAssoc (process_selected_folders clientABC "/w" wsABC ["w"]) "a.py"
      = some ("⚠️ Error: " ++ "boom") ∧
    analyze_code_with_ai clientABC "A" "a.py" = "⚠️ Error: " ++ "boom" :=
  c2_reviewer_failure_isolated clientABC "/w" wsABC ["w"]
    "a.py" "A" "boom" "b.py" "B" "ok B" "c.py" "C" "ok C"
    rfl rfl rfl (by decide) (by decide) (by decide)

/-- Claim C4: every key of the batch built by process_selected_folders
ends with one of the allowed extensions, under the case-sensitive suffix
test of the source; a file whose name has no such suffix never enters the
batch. -/
theorem c4_batch_keys_allowed_ext (client : Reviewer) (base_path : String) (ws : EntryList) (selected : List String) (name : String)
    (h : name ∈ (process_selected_folders client base_path ws selected).map Prod.fst) :
    allowedFile name = true := by
  rw [process_selected_folders_eq_foldl] at h
  rcases (mem_map_fst_foldl_reviewStep client _ [] name).mp h with h | h
  · simp at h
  · obtain ⟨f, hf, rfl⟩ := List.mem_map.mp h
    exact allowed_of_mem_discoverAll base_path ws selected f hf

/-- Claim C4, witness: instantiation at a workspace holding a single
python file. -/
theorem c4_batch_keys_allowed_ext_witness : allowedFile "a.py" = true :=
  c4_batch_keys_allowed_ext clientOk "/w" wsPy ["w"] "a.py" (by decide)

/-- Claim C5: the instrumented pipeline logs exactly one dispatcher call
per discovered file, in traversal order, while computing the same batch as
the plain pipeline; and the size of the batch equals the number of unique
base filenames discovered, not the number of files discovered. -/
theorem c5_one_dispatch_per_file (client : Reviewer) (base_path : String) (ws : EntryList) (selected : List String) :
    (process_selected_folders_traced client base_path ws selected).2
      = (discoverAll base_path ws selected).map Prod.fst ∧
    (process_selected_folders_traced client base_path ws selected).1
      = process_selected_folders client base_path ws selected ∧
    (process_selected_folders client base_path ws selected).length
      = ((discoverAll base_path ws selected).map Prod.fst).toFinset.card := by
  refine ⟨by rw [process_selected_folders_traced_eq],
    by rw [process_selected_folders_traced_eq], ?_⟩
  have hnodup : ((process_selected_folders client base_path ws selected).map Prod.fst).Nodup := by
    rw [process_selected_folders_eq_foldl]
    exact nodup_map_fst_foldl_reviewStep client _ [] (by simp)
  have hmem : ∀ x, x ∈ (process_selected_folders client base_path ws selected).map Prod.fst
      ↔ x ∈ (discoverAll base_path ws selected).map Prod.fst := by
    intro x
    rw [process_selected_folders_eq_foldl]
    simpa using mem_map_fst_foldl_reviewStep client (discoverAll base_path ws selected) [] x
  have hfin : ((process_selected_folders client base_path ws selected).map Prod.fst).toFinset
      = ((discoverAll base_path ws selected).map Prod.fst).toFinset := by
    ext x
    simp only [List.mem_toFinset]
    exact hmem x
  calc (process_selected_folders client base_path ws selected).length
      = ((process_selected_folders client base_path ws selected).map Prod.fst).length := by
        rw [List.length_map]
    _ = ((process_selected_folders client base_path ws selected).map Prod.fst).toFinset.card :=
        (List.toFinset_card_of_nodup hnodup).symm
    _ = ((discoverAll base_path ws selected).map Prod.fst).toFinset.card := by
        rw [hfin]

/-- Claim C10: calling the review_zip tool on an existing zip with the
folders argument omitted or equal to the empty list never produces an
empty-selection decline: it behaves exactly as if the single label equal
to the basename of the extracted workspace path had been selected, and
that selection walks the whole workspace, reviewing every discovered
file. -/
theorem c10_review_zip_default_folders (client : Reviewer) (public_url temp_dir zip_path : String) (ws : EntryList) (folders : Option (List String))
    (h : folders = none ∨ folders = some []) :
    review_zip client public_url temp_dir zip_path true (some ws) folders
      = review_zip client public_url temp_dir zip_path true (some ws)
          (some [basename temp_dir]) ∧
    process_selected_folders client temp_dir ws [basename temp_dir]
      = (osWalkFiles temp_dir ws).foldl (reviewStep client) [] := by
  constructor
  · rcases h with rfl | rfl <;> rfl
  · simp [process_selected_folders, discover_one]

/-- Claim C10, witness: instantiation at a one-file workspace with the
folders argument omitted. -/
theorem c10_review_zip_default_folders_witness :
    review_zip clientR "u" "/t" "z.zip" true (some wsT) none
      = review_zip clientR "u" "/t" "z.zip" true (some wsT)
          (some [basename "/t"]) ∧
    process_selected_folders clientR "/t" wsT [basename "/t"]
      = (osWalkFiles "/t" wsT).foldl (reviewStep clientR) [] :=
  c10_review_zip_default_folders clientR "u" "/t" "z.zip" wsT none (Or.inl rfl)
